import Mathlib

/-!
Verification of `xonsh/commands_cache.py` (class `CommandsCache` and the
background predictors) against its natural-language specification.

Shallow embedding conventions:
* The ambient state read by the Python code (`$PATH`, `$PATHEXT`,
  `builtins.aliases`, `os.path.isdir`, `os.stat`, `os.path.isfile`,
  `executables_in`, `os.path.abspath`, `ON_WINDOWS`) is bundled into an
  explicit `Env` record of pure functions.
* `os.stat` is modelled as `String → Option Int`: `none` models the call
  raising `OSError`/`FileNotFoundError` (e.g. the directory vanished between
  the `os.path.isdir` filter and the `os.stat` call).  A function that can
  propagate such an exception returns an `Option`; `none` is the exception.
* Python's `hash(frozenset(..))` over a set of strings is modelled by the
  `Finset String` itself (an injective hash): two checksums are equal exactly
  when the underlying sets are equal.
* A Python `dict` built by item assignment is modelled as a duplicate-free
  association list: assignment to an existing key updates it in place,
  assignment to a fresh key appends.
* `st_mtime` is modelled as `Int` (the cache initialises `_path_mtime = -1`).
-/

/-- An entry of the commands cache: `(loc, has_alias)` where `loc` is the
executable's location on the file system (or `none`) and `has_alias` says
whether the command name has an alias. -/
abbrev EntryV := Option String × Bool

/-- The cached mapping from command name to entry, as an insertion-ordered,
duplicate-free association list (a Python `dict`). -/
abbrev Cmap := List (String × EntryV)

/-- The ambient environment and file system read by `CommandsCache`. -/
structure Env where
  /-- `builtins.__xonsh_env__.get('PATH', [])`, highest priority first. -/
  path : List String
  /-- `builtins.__xonsh_env__['PATHEXT']` (only consulted on Windows). -/
  pathext : List String
  /-- the names in `getattr(builtins, 'aliases', set())`. -/
  aliases : List String
  /-- `os.path.isdir` at the time the PATH entries are filtered. -/
  isdir : String → Bool
  /-- `os.stat(..).st_mtime` at the time of the mtime loop; `none` models the
  call raising because the directory vanished or became unreadable. -/
  stat : String → Option Int
  /-- `xonsh.tools.executables_in` (external collaborator): the executable
  file names found in one directory. -/
  executablesIn : String → List String
  /-- `os.path.isfile`. -/
  isfile : String → Bool
  /-- `os.path.abspath`. -/
  abspath : String → String
  /-- `xonsh.platform.ON_WINDOWS`. -/
  onWindows : Bool

/-- The mutable state of a `CommandsCache` instance. -/
structure CommandsCache where
  /-- `self._cmds_cache` -/
  cmdsCache : Cmap
  /-- `self._path_checksum` (`none` = the initial `None`). -/
  pathChecksum : Option (Finset String)
  /-- `self._alias_checksum` (`none` = the initial `None`). -/
  aliasChecksum : Option (Finset String)
  /-- `self._path_mtime` -/
  pathMtime : Int

/-- `CommandsCache.__init__` (the predictor table is a separate function). -/
def initCache : CommandsCache :=
  { cmdsCache := [], pathChecksum := none, aliasChecksum := none, pathMtime := -1 }

/-- `d.get(k)` on a duplicate-free association list. -/
def assocGet (m : Cmap) (k : String) : Option EntryV :=
  match m with
  | [] => none
  | (k', v) :: rest => if k' = k then some v else assocGet rest k

/-- `d[k] = v` on a duplicate-free association list: update in place if the
key is present, append otherwise. -/
def assocSet (m : Cmap) (k : String) (v : EntryV) : Cmap :=
  match m with
  | [] => [(k, v)]
  | (k', v') :: rest => if k' = k then (k', v) :: rest else (k', v') :: assocSet rest k v

/-- `CommandsCache.is_empty`: `len(self._cmds_cache) == 0`. -/
def is_empty (c : CommandsCache) : Bool :=
  c.cmdsCache.length == 0

/-- `str.upper()` (character-wise, sufficient for the ASCII command names
involved here; Lean's own `String.toUpper` is the same map). -/
def strUpper (s : String) : String :=
  String.mk (s.data.map Char.toUpper)

/-- Does `s` start with the string `pre`? (`str.startswith`). -/
def strStarts (s pre : String) : Bool :=
  pre.data.isPrefixOf s.data

/-- Does `s` contain the character `ch`? (`ch in s`). -/
def strHas (s : String) (ch : Char) : Bool :=
  s.data.contains ch

/-- The first `n` characters of `s` (`s[:n]`). -/
def strTake (s : String) (n : Nat) : String :=
  String.mk (s.data.take n)

/-- `s` without its first `n` characters (`s[n:]`). -/
def strDrop (s : String) (n : Nat) : String :=
  String.mk (s.data.drop n)

/-- `CommandsCache.get_possible_names`: on Windows, upper-case the name and
produce `name + ext for ext in [''] + PATHEXT`; elsewhere `[name]`. -/
def get_possible_names (env : Env) (name : String) : List String :=
  if env.onWindows then
    ( "" :: env.pathext).map (fun ext => strUpper name ++ ext)
  else [name]

/-- The key each command is stored under: `cmd.upper() if ON_WINDOWS else cmd`. -/
def keyOf (env : Env) (cmd : String) : String :=
  if env.onWindows then strUpper cmd else cmd

/-- The existing directories of `$PATH`:
`frozenset(x for x in paths if os.path.isdir(x))`, kept as a duplicate-free
list for iteration (`max` and "does any `os.stat` raise" do not depend on the
arbitrary iteration order of the Python `frozenset`). -/
def pathsetOf (env : Env) : List String :=
  (env.path.filter env.isdir).dedup

/-- `hash(pathset)`, with the hash modelled injectively by the set itself. -/
def pathHashOf (env : Env) : Finset String :=
  (pathsetOf env).toFinset

/-- `hash(frozenset(alss))`, hash modelled injectively by the set itself. -/
def aliasHashOf (env : Env) : Finset String :=
  env.aliases.toFinset

/-- The mtime loop of `all_commands` (lines 86-92): running maximum of
`os.stat(path).st_mtime` over the path set, starting at `0`; `none` if any
`os.stat` raises. -/
def maxMtimeLoop (stat : String → Option Int) : List String → Int → Option Int
  | [], acc => some acc
  | p :: ps, acc =>
    match stat p with
    | none => none
    | some mtime => maxMtimeLoop stat ps (if mtime > acc then mtime else acc)

/-- The maximum directory mtime computed by one validation pass. -/
def maxMtimeOf (env : Env) : Option Int :=
  maxMtimeLoop env.stat (pathsetOf env) 0

/-- The inner loop of the rebuild over one directory `p`:
`allcmds[key] = (os.path.join(path, cmd), cmd in alss)` for each scanned
`cmd` (with `os.path.join` modelled as `p ++ "/" ++ cmd`). -/
def scanFold (env : Env) (p : String) (acc : Cmap) (l : List String) : Cmap :=
  l.foldl
    (fun m cmd => assocSet m (keyOf env cmd) (some (p ++ "/" ++ cmd), env.aliases.contains cmd))
    acc

/-- One directory of the rebuild scan: `for cmd in executables_in(path): ...`. -/
def scanStep (env : Env) (acc : Cmap) (p : String) : Cmap :=
  scanFold env p acc (env.executablesIn p)

/-- The map after the directory scan of a rebuild:
`for path in reversed(paths)` (the raw, unfiltered `$PATH`), so that entries
at the front of `$PATH` overwrite entries at the back. -/
def scannedOf (env : Env) : Cmap :=
  env.path.reverse.foldl (scanStep env) []

/-- One alias of the alias merge: `if cmd not in allcmds: allcmds[key] = (None, True)`.
Note the membership test uses the raw `cmd` while the insertion uses the
normalized `key`. -/
def aliasStep (env : Env) (m : Cmap) (cmd : String) : Cmap :=
  if (assocGet m cmd).isSome then m
  else assocSet m (keyOf env cmd) (none, true)

/-- The full rebuild of `all_commands` (lines 95-106): scan every directory of
the raw `$PATH` back to front, then merge alias-only entries. -/
def rebuild (env : Env) : Cmap :=
  env.aliases.foldl (aliasStep env) (scannedOf env)

/-- The cache state with the three fingerprint fields refreshed to the values
just computed. -/
def refreshedCache (env : Env) (c : CommandsCache) (m : Int) : CommandsCache :=
  { c with
    pathChecksum := some (pathHashOf env)
    aliasChecksum := some (aliasHashOf env)
    pathMtime := m }

/-- The body of `all_commands` after the mtime loop has either raised
(`none`, in which case `_path_checksum` and `_alias_checksum` were already
reassigned but `_path_mtime` and `_cmds_cache` were not) or produced
`max_mtime`.  `cache_valid` is the conjunction computed on lines 78, 83
and 91. -/
def all_commands_core (env : Env) (c : CommandsCache) : Option Int → CommandsCache × Option Cmap
  | none =>
    ({ c with
        pathChecksum := some (pathHashOf env)
        aliasChecksum := some (aliasHashOf env) }, none)
  | some max_mtime =>
    if c.pathChecksum = some (pathHashOf env) ∧ c.aliasChecksum = some (aliasHashOf env)
        ∧ max_mtime ≤ c.pathMtime then
      (refreshedCache env c max_mtime, some c.cmdsCache)
    else
      ({ refreshedCache env c max_mtime with cmdsCache := rebuild env }, some (rebuild env))

/-- `CommandsCache.all_commands`: returns the updated cache state and the
published map, or `none` when the mtime loop raised. -/
def all_commands (env : Env) (c : CommandsCache) : CommandsCache × Option Cmap :=
  all_commands_core env c (maxMtimeOf env)

/-- The `cache_valid` flag computed by one validation pass (lines 76-91);
`none` when the mtime loop raises before the flag is fully computed. -/
def cacheValidOf (env : Env) (c : CommandsCache) : Option Bool :=
  (maxMtimeOf env).map (fun max_mtime =>
    decide (c.pathChecksum = some (pathHashOf env)) &&
    decide (c.aliasChecksum = some (aliasHashOf env)) &&
    decide (max_mtime ≤ c.pathMtime))

/-- `os.path.basename` / `xonsh.platform.pathbasename` (posix flavour): the
suffix of the string after the last `'/'`. -/
def pathbasename (s : String) : String :=
  String.mk ((s.data.reverse.takeWhile (fun ch => ch != '/')).reverse)

/-- `CommandsCache.cached_name`: the key under which `name` would appear in
the current cache.  `none` models Python's `None` (both as argument and as
result of the Windows variant search). -/
def cached_name (env : Env) (c : CommandsCache) (name : Option String) : Option String :=
  match name with
  | none => none
  | some n =>
    let cached := pathbasename n
    if env.onWindows then
      (get_possible_names env cached).find? (fun k => (assocGet c.cmdsCache k).isSome)
    else some cached

/-- `CommandsCache.lazyin`: `self.cached_name(key) in self._cmds_cache`
(`None` is never a key of the cache, whose keys are strings). -/
def lazyin (env : Env) (c : CommandsCache) (key : Option String) : Bool :=
  match cached_name env c key with
  | none => false
  | some k => (assocGet c.cmdsCache k).isSome

/-- `CommandsCache.lazyget`: `self._cmds_cache.get(self.cached_name(key), default)`. -/
def lazyget (env : Env) (c : CommandsCache) (key : Option String) (default : Option EntryV) :
    Option EntryV :=
  match cached_name env c key with
  | none => default
  | some k =>
    match assocGet c.cmdsCache k with
    | some v => some v
    | none => default

/-- Python truthiness of an optional string (`if cached:` is False for both
`None` and the empty string). -/
def truthy : Option String → Bool
  | none => false
  | some s => s != ""

/-- `CommandsCache.lazy_locate_binary`. -/
def lazy_locate_binary (env : Env) (c : CommandsCache) (name : String) : Option String :=
  let possibilities := get_possible_names env name
  let local_bin : Option String :=
    if env.onWindows then possibilities.find? env.isfile else none
  if truthy local_bin then some (env.abspath (local_bin.getD ""))
  else
    let cached := possibilities.find? (fun cmd => (assocGet c.cmdsCache cmd).isSome)
    if truthy cached then
      match assocGet c.cmdsCache (cached.getD "") with
      | some entry => entry.1
      | none => none
    else if env.isfile name && (name != pathbasename name) then some name
    else none

/-- `CommandsCache.locate_binary`: refresh via `all_commands`, then delegate
to `lazy_locate_binary`; an exception in `all_commands` propagates. -/
def locate_binary (env : Env) (c : CommandsCache) (name : String) :
    CommandsCache × Option (Option String) :=
  match all_commands env c with
  | (c', none) => (c', none)
  | (c', some _) => (c', some (lazy_locate_binary env c' name))

/-- `CommandsCache.__contains__`: refresh via `all_commands`, then `lazyin`;
an exception in `all_commands` propagates. -/
def contains_op (env : Env) (c : CommandsCache) (key : Option String) :
    CommandsCache × Option Bool :=
  match all_commands env c with
  | (c', none) => (c', none)
  | (c', some _) => (c', some (lazyin env c' key))

/-- `predict_true`: always say the process is backgroundable. -/
def predict_true : List String → Option Bool :=
  fun _ => some true

/-- `predict_false`: never say the process is backgroundable. -/
def predict_false : List String → Option Bool :=
  fun _ => some false

/-!
`SHELL_PREDICTOR_PARSER` is `argparse.ArgumentParser('shell')` — note that
only `prog` is set, so the stdlib default `add_help=True` is in force and the
parser owns three option strings: `-c` (`nargs='?'`), `-h` and `--help` (the
auto-added help action), plus one positional `filename` (`nargs='?'`).
The following definitions model CPython `argparse.parse_known_args` for this
fixed parser (an external stdlib collaborator): token classification follows
`_parse_optional` / `_get_option_tuples` (exact option strings, `opt=value`
splitting, attached short-option values, negative-number-like and
space-containing tokens as positionals, prefix abbreviations of `--help`,
everything after a first `--` positional), and the consumption loop follows
`_parse_known_args` (`-c` takes the next positional-classified token if any,
the first free positional token becomes `filename`, unknown options and
surplus positionals fall into the ignored extras).  Consuming the help action
prints usage and raises `SystemExit`, modelled as `none`; a consumed literal
`--` is stripped by `_get_values`, yielding the default `None`.
-/

/-- Classification of one token by `_parse_optional` for this parser. -/
inductive ShTok
  /-- a positional-looking token (pattern letter `A`). -/
  | A
  /-- the `-c` option, with its explicit (attached or `=`) argument if any. -/
  | optC (explicit : Option String)
  /-- the help action; an explicit argument makes it an error exit. -/
  | optHelp (explicit : Option String)
  /-- an unrecognized option string (goes to the extras). -/
  | unknown

/-- Split `tok` at its first `'='` into `(lhs, rhs)` (`tok.split('=', 1)`). -/
def splitEq (t : String) : String × String :=
  (String.mk (t.data.takeWhile (fun ch => ch != '=')),
   String.mk ((t.data.dropWhile (fun ch => ch != '=')).drop 1))

/-- Split a character list on a separator character (`str.split(sep)`). -/
def splitChar (sep : Char) : List Char → List (List Char)
  | [] => [[]]
  | x :: xs =>
    if x = sep then [] :: splitChar sep xs
    else
      match splitChar sep xs with
      | [] => [[x]]
      | g :: gs => (x :: g) :: gs

/-- `argparse._negative_number_matcher`: `^-\d+$|^-\d*\.\d+$`. -/
def isNegativeNumberLike (t : String) : Bool :=
  strStarts t "-" &&
    (let r := t.data.drop 1
     (! r.isEmpty && r.all Char.isDigit) ||
       (match splitChar '.' r with
        | [a, b] => ! b.isEmpty && a.all Char.isDigit && b.all Char.isDigit
        | _ => false))

/-- `_parse_optional` for this parser (never called on the literal `"--"`,
which the caller handles first). -/
def classify (t : String) : ShTok :=
  if t = "" then ShTok.A
  else if ! strStarts t "-" then ShTok.A
  else if t = "-c" then ShTok.optC none
  else if t = "-h" ∨ t = "--help" then ShTok.optHelp none
  else if t = "-" then ShTok.A
  else if strHas t '=' ∧ (splitEq t).1 = "-c" then ShTok.optC (some (splitEq t).2)
  else if strHas t '=' ∧ ((splitEq t).1 = "-h" ∨ (splitEq t).1 = "--help") then
    ShTok.optHelp (some (splitEq t).2)
  else if strStarts t "--" then
    if strHas t '=' ∧ strStarts "--help" (splitEq t).1 then
      ShTok.optHelp (some (splitEq t).2)
    else if strStarts "--help" t then ShTok.optHelp none
    else if strHas t ' ' then ShTok.A
    else ShTok.unknown
  else if strTake t 2 = "-c" then ShTok.optC (some (strDrop t 2))
  else if strTake t 2 = "-h" then ShTok.optHelp (some (strDrop t 2))
  else if isNegativeNumberLike t then ShTok.A
  else if strHas t ' ' then ShTok.A
  else ShTok.unknown

/-- Classify a whole argument list; after a first `"--"` every token is a
positional (`A`), as in `_parse_known_args`. -/
def classifyAll : List String → Bool → List (String × ShTok)
  | [], _ => []
  | t :: ts, afterDD =>
    if afterDD then (t, ShTok.A) :: classifyAll ts true
    else if t = "--" then (t, ShTok.A) :: classifyAll ts true
    else (t, classify t) :: classifyAll ts false

/-- The consumption loop of `_parse_known_args` for this parser.  State:
the current values of `ns.c` and `ns.filename`, whether the `filename`
positional has already been matched, and whether a bare `-c` is pending
(a `-c` with `nargs='?'` takes the next positional-classified token as its
value, and takes the constant `None` when the next token is an option or the
list ends — whenever `pend` is true the eventual resolution overwrites `cv`).
Returns `none` when the help action is consumed (`SystemExit`). -/
def parseLoop : List (String × ShTok) → Option String → Option String → Bool → Bool →
    Option (Option String × Option String)
  | [], cv, fv, _, pend => some ((if pend then none else cv), fv)
  | (t, tok) :: rest, cv, fv, fdone, pend =>
    match tok with
    | ShTok.A =>
      if pend then parseLoop rest (if t = "--" then none else some t) fv fdone false
      else if fdone then parseLoop rest cv fv fdone false
      else parseLoop rest cv (if t = "--" then none else some t) true false
    | ShTok.optC none => parseLoop rest none fv fdone true
    | ShTok.optC (some v) => parseLoop rest (some v) fv fdone false
    | ShTok.optHelp _ => none
    | ShTok.unknown => parseLoop rest (if pend then none else cv) fv fdone false

/-- `SHELL_PREDICTOR_PARSER.parse_known_args(args)`, giving
`(ns.c, ns.filename)` or `none` on `SystemExit`. -/
def parse_known_args (args : List String) : Option (Option String × Option String) :=
  parseLoop (classifyAll args false) none none false false

/-- `predict_shell`: backgroundable iff the parse finds either a `-c` value
or a `filename`; propagates the parser's `SystemExit` as `none`. -/
def predict_shell (args : List String) : Option Bool :=
  (parse_known_args args).map (fun ns => if ns.1 = none ∧ ns.2 = none then false else true)

/-- `default_backgroundable_predictors()`: the shells map to `predict_shell`,
`ssh`/`startx`/`vi` to `predict_false`, and every other name to the
defaultdict's factory `predict_true`. -/
def default_backgroundable_predictors (name : String) : List String → Option Bool :=
  if name = "sh" ∨ name = "zsh" ∨ name = "ksh" ∨ name = "csh" ∨ name = "tcsh"
      ∨ name = "bash" ∨ name = "fish" ∨ name = "xonsh" then predict_shell
  else if name = "ssh" ∨ name = "startx" ∨ name = "vi" then predict_false
  else predict_true

/-- `self.backgroundable_predictors[name]` where `name` may be Python `None`
(a defaultdict lookup returns the factory value for any missing key). -/
def predictorFor : Option String → List String → Option Bool
  | none => predict_true
  | some n => default_backgroundable_predictors n

/-- `CommandsCache.predict_backgroundable`.  `cmd[0]` on an empty list would
raise (`none`).  The Python sentinel default `(None, None)` has a non-boolean
`is_alias`, but it is only observed through `path is None or is_alias`, which
is already true whenever `path` is `None`; modelling it as `(none, false)` is
observationally equivalent. -/
def predict_backgroundable (env : Env) (c : CommandsCache) (cmd : List String) : Option Bool :=
  match cmd with
  | [] => none
  | c0 :: rest =>
    let name := cached_name env c (some c0)
    let e := (lazyget env c name none).getD ((none : Option String), false)
    if e.1 = none ∨ e.2 = true then some true
    else predictorFor name rest

/-! ### Laws of the association-list dictionary -/

theorem assocGet_assocSet_self (m : Cmap) (k : String) (v : EntryV) :
    assocGet (assocSet m k v) k = some v := by
  induction m with
  | nil => simp [assocSet, assocGet]
  | cons hd tl ih =>
    obtain ⟨k', v'⟩ := hd
    by_cases h : k' = k
    · simp [assocSet, h, assocGet]
    · simp [assocSet, h, assocGet, ih]

theorem assocGet_assocSet_ne (m : Cmap) (k k' : String) (v : EntryV) (hne : k ≠ k') :
    assocGet (assocSet m k v) k' = assocGet m k' := by
  induction m with
  | nil => simp [assocSet, assocGet, hne]
  | cons hd tl ih =>
    obtain ⟨k0, v0⟩ := hd
    by_cases h : k0 = k
    · subst h
      simp [assocSet, assocGet, hne]
    · simp [assocSet, h, assocGet, ih]

/-! ### How the rebuild scan writes the map -/

theorem scanFold_get_of_no_key (env : Env) (p : String) :
    ∀ (l : List String) (acc : Cmap) (k : String),
      (∀ x ∈ l, keyOf env x ≠ k) →
      assocGet (scanFold env p acc l) k = assocGet acc k := by
  intro l
  induction l with
  | nil => intro acc k _; rfl
  | cons x xs ih =>
    intro acc k h
    have hx : keyOf env x ≠ k := h x (by simp)
    have hxs : ∀ y ∈ xs, keyOf env y ≠ k := fun y hy => h y (by simp [hy])
    simp only [scanFold, List.foldl_cons]
    rw [show (List.foldl _ _ xs : Cmap) = scanFold env p
        (assocSet acc (keyOf env x) (some (p ++ "/" ++ x), env.aliases.contains x)) xs from rfl]
    rw [ih _ k hxs, assocGet_assocSet_ne _ _ _ _ hx]

theorem scanFold_get_of_mem (env : Env) (p : String) :
    ∀ (l : List String) (acc : Cmap) (nm : String),
      nm ∈ l →
      (∀ x ∈ l, keyOf env x = keyOf env nm → x = nm) →
      assocGet (scanFold env p acc l) (keyOf env nm)
        = some (some (p ++ "/" ++ nm), env.aliases.contains nm) := by
  intro l
  induction l with
  | nil => intro acc nm h _; exact absurd h (by simp)
  | cons x xs ih =>
    intro acc nm hmem huniq
    by_cases hxs : nm ∈ xs
    · simp only [scanFold, List.foldl_cons]
      exact ih _ nm hxs (fun y hy => huniq y (by simp [hy]))
    · have hx : nm = x := by
        rcases List.mem_cons.mp hmem with h | h
        · exact h
        · exact absurd h hxs
      subst hx
      simp only [scanFold, List.foldl_cons]
      have hnone : ∀ y ∈ xs, keyOf env y ≠ keyOf env nm := by
        intro y hy hkey
        exact hxs ((huniq y (by simp [hy]) hkey) ▸ hy)
      rw [show (List.foldl _ _ xs : Cmap) = scanFold env p
          (assocSet acc (keyOf env nm) (some (p ++ "/" ++ nm), env.aliases.contains nm)) xs
          from rfl]
      rw [scanFold_get_of_no_key env p xs _ _ hnone, assocGet_assocSet_self]

/-- First-directory-wins: if `dA` is the first entry of `l` whose scan yields
an executable stored under `nm`'s key, and inside `dA` only `nm` itself is
stored under that key, then after the backwards scan the key holds `dA`'s
entry for `nm`. -/
theorem scanned_first_wins (env : Env) (nm dA : String) :
    ∀ (l : List String) (acc : Cmap),
      l.find? (fun p => (env.executablesIn p).any
        (fun x => keyOf env x == keyOf env nm)) = some dA →
      (∀ x ∈ env.executablesIn dA, keyOf env x = keyOf env nm → x = nm) →
      assocGet (l.reverse.foldl (scanStep env) acc) (keyOf env nm)
        = some (some (dA ++ "/" ++ nm), env.aliases.contains nm) := by
  intro l
  induction l with
  | nil => intro acc hfind _; exact absurd hfind (by simp)
  | cons p ps ih =>
    intro acc hfind huniq
    rw [List.reverse_cons, List.foldl_append]
    by_cases hp : (env.executablesIn p).any (fun x => keyOf env x == keyOf env nm) = true
    · have hcons : (p :: ps).find? (fun q => (env.executablesIn q).any
          (fun x => keyOf env x == keyOf env nm)) = some p :=
        List.find?_cons_of_pos ps hp
      rw [hcons] at hfind
      have hpa : p = dA := by injection hfind
      subst hpa
      obtain ⟨x, hxmem, hxkey⟩ := List.any_eq_true.mp hp
      have hxeq : x = nm := huniq x hxmem (by exact beq_iff_eq.mp hxkey)
      subst hxeq
      simpa only [List.foldl_cons, List.foldl_nil, scanStep] using
        scanFold_get_of_mem env p (env.executablesIn p) _ x hxmem huniq
    · have hcons : (p :: ps).find? (fun q => (env.executablesIn q).any
          (fun x => keyOf env x == keyOf env nm)) = ps.find? (fun q => (env.executablesIn q).any
          (fun x => keyOf env x == keyOf env nm)) :=
        List.find?_cons_of_neg ps hp
      rw [hcons] at hfind
      have hnone : ∀ x ∈ env.executablesIn p, keyOf env x ≠ keyOf env nm := by
        intro x hx hkey
        exact hp (List.any_eq_true.mpr ⟨x, hx, beq_iff_eq.mpr hkey⟩)
      simp only [List.foldl_cons, List.foldl_nil, scanStep]
      rw [scanFold_get_of_no_key env p _ _ _ hnone]
      exact ih acc hfind huniq

/-! ### How the alias merge treats the map -/

theorem aliasFold_preserve (env : Env) (hwin : env.onWindows = false) (k : String) (v : EntryV) :
    ∀ (al : List String) (m : Cmap), assocGet m k = some v →
      assocGet (al.foldl (aliasStep env) m) k = some v := by
  intro al
  induction al with
  | nil => intro m hm; exact hm
  | cons a al' ih =>
    intro m hm
    rw [List.foldl_cons]
    by_cases ha : (assocGet m a).isSome
    · rw [show aliasStep env m a = m from by simp [aliasStep, ha]]
      exact ih m hm
    · have hak : a ≠ k := by
        intro h
        exact ha (h ▸ (by simp [hm]))
      rw [show aliasStep env m a = assocSet m a (none, true) from by
        simp [aliasStep, ha, keyOf, hwin]]
      exact ih _ (by rw [assocGet_assocSet_ne _ _ _ _ hak]; exact hm)

theorem aliasFold_adds (env : Env) (hwin : env.onWindows = false) (k : String) :
    ∀ (al : List String) (m : Cmap), k ∈ al → assocGet m k = none →
      assocGet (al.foldl (aliasStep env) m) k = some (none, true) := by
  intro al
  induction al with
  | nil => intro m hmem _; exact absurd hmem (by simp)
  | cons a al' ih =>
    intro m hmem hnone
    rw [List.foldl_cons]
    by_cases hak : a = k
    · subst hak
      rw [show aliasStep env m a = assocSet m a (none, true) from by
        simp [aliasStep, hnone, keyOf, hwin]]
      exact aliasFold_preserve env hwin a (none, true) al' _ (assocGet_assocSet_self _ _ _)
    · have hmem' : k ∈ al' := by
        rcases List.mem_cons.mp hmem with h | h
        · exact absurd h.symm hak
        · exact h
      by_cases ha : (assocGet m a).isSome
      · rw [show aliasStep env m a = m from by simp [aliasStep, ha]]
        exact ih _ hmem' hnone
      · rw [show aliasStep env m a = assocSet m a (none, true) from by
          simp [aliasStep, ha, keyOf, hwin]]
        exact ih _ hmem' (by rw [assocGet_assocSet_ne _ _ _ _ hak]; exact hnone)

/-! ### The alias-only invariant of rebuilt maps -/

/-- Every entry of the map has a location, or is flagged as an alias. -/
def mapOk (m : Cmap) : Prop :=
  ∀ k v, assocGet m k = some v → v.1 = none → v.2 = true

theorem mapOk_assocSet (m : Cmap) (k : String) (v : EntryV)
    (hm : mapOk m) (hv : v.1 = none → v.2 = true) : mapOk (assocSet m k v) := by
  intro k' v' hget hnone
  by_cases hkk : k = k'
  · subst hkk
    rw [assocGet_assocSet_self] at hget
    injection hget with h
    subst h
    exact hv hnone
  · rw [assocGet_assocSet_ne _ _ _ _ hkk] at hget
    exact hm k' v' hget hnone

theorem mapOk_foldl {α : Type} (f : Cmap → α → Cmap)
    (hf : ∀ m x, mapOk m → mapOk (f m x)) :
    ∀ (l : List α) (m : Cmap), mapOk m → mapOk (l.foldl f m) := by
  intro l
  induction l with
  | nil => intro m hm; exact hm
  | cons x xs ih => intro m hm; rw [List.foldl_cons]; exact ih _ (hf m x hm)

theorem mapOk_scanStep (env : Env) (p : String) (m : Cmap) (hm : mapOk m) :
    mapOk (scanStep env m p) := by
  unfold scanStep scanFold
  refine mapOk_foldl _ ?_ _ _ hm
  intro m' cmd hm'
  exact mapOk_assocSet _ _ _ hm' (by simp)

theorem mapOk_aliasStep (env : Env) (m : Cmap) (cmd : String) (hm : mapOk m) :
    mapOk (aliasStep env m cmd) := by
  unfold aliasStep
  by_cases h : (assocGet m cmd).isSome
  · simpa [h] using hm
  · simp only [h, if_false, Bool.false_eq_true]
    exact mapOk_assocSet _ _ _ hm (by simp)

theorem mapOk_rebuild (env : Env) : mapOk (rebuild env) := by
  unfold rebuild scannedOf
  refine mapOk_foldl _ (fun m x hm => mapOk_aliasStep env m x hm) _ _ ?_
  refine mapOk_foldl _ (fun m x hm => mapOk_scanStep env x m hm) _ _ ?_
  intro k v hget
  simp [assocGet] at hget

/-! ### `pathbasename` is idempotent -/

theorem takeWhile_self {α : Type} (p : α → Bool) (l : List α) :
    (l.takeWhile p).takeWhile p = l.takeWhile p := by
  induction l with
  | nil => rfl
  | cons x xs ih =>
    by_cases h : p x
    · simp [List.takeWhile_cons, h, ih]
    · simp [List.takeWhile_cons, h]

theorem pathbasename_idem (s : String) : pathbasename (pathbasename s) = pathbasename s := by
  unfold pathbasename
  rw [show (String.mk ((s.data.reverse.takeWhile (fun ch => ch != '/')).reverse)).data
      = (s.data.reverse.takeWhile (fun ch => ch != '/')).reverse from rfl]
  rw [List.reverse_reverse, takeWhile_self]

/-! ### Stability of a freshly validated cache -/

theorem all_commands_stable (env : Env) (c : CommandsCache) (M : Int)
    (hM : maxMtimeOf env = some M)
    (h1 : c.pathChecksum = some (pathHashOf env))
    (h2 : c.aliasChecksum = some (aliasHashOf env))
    (h3 : c.pathMtime = M) :
    all_commands env c = (c, some c.cmdsCache) := by
  unfold all_commands
  rw [hM]
  simp only [all_commands_core]
  rw [if_pos ⟨h1, h2, by rw [h3]⟩]
  unfold refreshedCache
  rw [← h1, ← h2, ← h3]

/-! ### Concrete environments used by witnesses and counterexamples -/

/-- Two existing directories, both providing an executable `foo`. -/
def envTwoDirs : Env :=
  { path := ["/a", "/b"], pathext := [], aliases := [],
    isdir := fun _ => true, stat := fun _ => some 3,
    executablesIn := fun _ => ["foo"], isfile := fun _ => false,
    abspath := id, onWindows := false }

/-- One directory providing `ls`, plus aliases `ls` and `myalias` (posix). -/
def envAlias : Env :=
  { path := ["/a"], pathext := [], aliases := ["ls", "myalias"],
    isdir := fun _ => true, stat := fun _ => some 1,
    executablesIn := fun _ => ["ls"], isfile := fun _ => false,
    abspath := id, onWindows := false }

/-- Windows: one directory providing `ls` (stored as key `LS`), plus an alias
spelled `ls`. -/
def envWinAlias : Env :=
  { path := ["/a"], pathext := [], aliases := ["ls"],
    isdir := fun _ => true, stat := fun _ => some 1,
    executablesIn := fun _ => ["ls"], isfile := fun _ => false,
    abspath := id, onWindows := true }

/-- A directory that passes the `os.path.isdir` filter but whose `os.stat`
raises (it vanished in between). -/
def envVanish : Env :=
  { path := ["/gone"], pathext := [], aliases := [],
    isdir := fun _ => true, stat := fun _ => none,
    executablesIn := fun _ => [], isfile := fun _ => false,
    abspath := id, onWindows := false }

/-- An environment with no search directories and no aliases. -/
def envEmpty : Env :=
  { path := [], pathext := [], aliases := [],
    isdir := fun _ => true, stat := fun _ => some 1,
    executablesIn := fun _ => [], isfile := fun _ => false,
    abspath := id, onWindows := false }

/-- Windows with `PATHEXT = ['.EXE', '.BAT']`. -/
def envWinExt : Env :=
  { path := [], pathext := [".EXE", ".BAT"], aliases := [],
    isdir := fun _ => false, stat := fun _ => none,
    executablesIn := fun _ => [], isfile := fun _ => false,
    abspath := id, onWindows := true }

/-- A cache knowing the real executable `vi`. -/
def cacheVi : CommandsCache :=
  { cmdsCache := [("vi", (some "/usr/bin/vi", false))],
    pathChecksum := none, aliasChecksum := none, pathMtime := -1 }

/-- A helper: `cached_name` only ever looks at the base name of its argument,
because `pathbasename` is idempotent. -/
theorem cached_name_basename (env : Env) (c : CommandsCache) (p : String) :
    cached_name env c (some p) = cached_name env c (some (pathbasename p)) := by
  unfold cached_name
  dsimp only
  rw [pathbasename_idem]

/-- Claim C1: the rebuild scans directories in reverse priority order, so the
entry stored under a (normalized) name provided by several search directories
is the one from the first (highest-priority) such directory; consequently,
with search order `[dirA, dirB]` and both directories providing executable
`nm`, `locate_binary nm` returns `dirA`'s path. -/
theorem locate_first_dir_wins (env : Env) (c : CommandsCache) (nm dA dB : String) (M : Int)
    (hfind : env.path.find? (fun q => (env.executablesIn q).any
      (fun x => keyOf env x == keyOf env nm)) = some dA)
    (huniq : ∀ x ∈ env.executablesIn dA, keyOf env x = keyOf env nm → x = nm) :
    assocGet (scannedOf env) (keyOf env nm)
      = some (some (dA ++ "/" ++ nm), env.aliases.contains nm)
    ∧ (env.onWindows = false → nm ≠ "" → env.path = [dA, dB] →
        nm ∈ env.executablesIn dB → maxMtimeOf env = some M → c.pathChecksum = none →
        (locate_binary env c nm).2 = some (some (dA ++ "/" ++ nm))) := by
  have hscan : assocGet (scannedOf env) (keyOf env nm)
      = some (some (dA ++ "/" ++ nm), env.aliases.contains nm) := by
    unfold scannedOf
    exact scanned_first_wins env nm dA env.path [] hfind huniq
  refine ⟨hscan, ?_⟩
  intro hwin hne _ _ hM hchk
  have hkey : keyOf env nm = nm := by simp [keyOf, hwin]
  have hscan2 : assocGet (scannedOf env) nm
      = some (some (dA ++ "/" ++ nm), env.aliases.contains nm) := by
    conv_lhs => rw [← hkey]
    exact hscan
  have hreb : assocGet (rebuild env) nm = some (some (dA ++ "/" ++ nm), env.aliases.contains nm) := by
    unfold rebuild
    exact aliasFold_preserve env hwin nm _ env.aliases _ hscan2
  have hac : all_commands env c
      = ({ refreshedCache env c M with cmdsCache := rebuild env }, some (rebuild env)) := by
    unfold all_commands
    rw [hM]
    simp only [all_commands_core]
    rw [if_neg]
    intro hcon
    rw [hchk] at hcon
    exact Option.noConfusion hcon.1
  unfold locate_binary
  rw [hac]
  show some (lazy_locate_binary env _ nm) = _
  refine congrArg some ?_
  unfold lazy_locate_binary
  rw [show get_possible_names env nm = [nm] from by simp [get_possible_names, hwin]]
  simp only [hwin, Bool.false_eq_true, if_false]
  rw [show truthy (none : Option String) = false from rfl]
  simp only [Bool.false_eq_true, if_false]
  have hfound : ([nm].find? (fun cmd => (assocGet (rebuild env) cmd).isSome)) = some nm := by
    apply List.find?_cons_of_pos
    rw [hreb]
    rfl
  rw [hfound]
  rw [show truthy (some nm) = (nm != "") from rfl]
  rw [show (nm != "") = true from by simpa using hne]
  simp only [if_true]
  rw [show (some nm).getD "" = nm from rfl]
  rw [hreb]

/-- Witness for claim C1 at the concrete two-directory environment. -/
theorem locate_first_dir_wins_witness :
    (locate_binary envTwoDirs initCache "foo").2 = some (some "/a/foo") :=
  (locate_first_dir_wins envTwoDirs initCache "foo" "/a" "/b" 3
      (by decide) (by decide)).2 rfl (by decide) rfl (by decide) (by decide) rfl

/-- Claim C2: a validating pass treats the cache as valid exactly when the
path-set hash, the alias-set hash and the `new mtime ≤ stored mtime` test all
hold against the stored fingerprint; when valid it returns the existing map
unchanged, when invalid it publishes the rebuild; the three fingerprint
fields are refreshed to the new values either way, and an immediate second
pass over the same environment is valid and returns the same map. -/
theorem all_commands_validation (env : Env) (c : CommandsCache) (M : Int)
    (hM : maxMtimeOf env = some M) :
    ((all_commands env c).1.pathChecksum = some (pathHashOf env)
      ∧ (all_commands env c).1.aliasChecksum = some (aliasHashOf env)
      ∧ (all_commands env c).1.pathMtime = M)
    ∧ (cacheValidOf env c = some true
        ↔ (c.pathChecksum = some (pathHashOf env) ∧ c.aliasChecksum = some (aliasHashOf env)
            ∧ M ≤ c.pathMtime))
    ∧ (cacheValidOf env c = some true →
        (all_commands env c).2 = some c.cmdsCache
          ∧ (all_commands env c).1.cmdsCache = c.cmdsCache)
    ∧ (cacheValidOf env c = some false → (all_commands env c).2 = some (rebuild env))
    ∧ all_commands env (all_commands env c).1
        = ((all_commands env c).1, some (all_commands env c).1.cmdsCache) := by
  have hcv : cacheValidOf env c
      = some (decide (c.pathChecksum = some (pathHashOf env)) &&
              decide (c.aliasChecksum = some (aliasHashOf env)) &&
              decide (M ≤ c.pathMtime)) := by
    unfold cacheValidOf
    rw [hM, Option.map_some']
  by_cases hv : (c.pathChecksum = some (pathHashOf env)
      ∧ c.aliasChecksum = some (aliasHashOf env) ∧ M ≤ c.pathMtime)
  · have hac : all_commands env c = (refreshedCache env c M, some c.cmdsCache) := by
      unfold all_commands
      rw [hM]
      simp only [all_commands_core]
      rw [if_pos hv]
    obtain ⟨hv1, hv2, hv3⟩ := hv
    refine ⟨?_, ?_, ?_, ?_, ?_⟩
    · rw [hac]
      exact ⟨rfl, rfl, rfl⟩
    · rw [hcv]
      simp [hv1, hv2, hv3]
    · intro _
      rw [hac]
      exact ⟨rfl, rfl⟩
    · intro hfalse
      rw [hcv] at hfalse
      simp [hv1, hv2, hv3] at hfalse
    · rw [hac]
      exact all_commands_stable env _ M hM rfl rfl rfl
  · have hac : all_commands env c
        = ({ refreshedCache env c M with cmdsCache := rebuild env }, some (rebuild env)) := by
      unfold all_commands
      rw [hM]
      simp only [all_commands_core]
      rw [if_neg hv]
    refine ⟨?_, ?_, ?_, ?_, ?_⟩
    · rw [hac]
      exact ⟨rfl, rfl, rfl⟩
    · rw [hcv]
      constructor
      · intro htrue
        simp only [Option.some.injEq, Bool.and_eq_true, decide_eq_true_eq] at htrue
        exact absurd ⟨htrue.1.1, htrue.1.2, htrue.2⟩ hv
      · intro hp
        exact absurd hp hv
    · intro htrue
      rw [hcv] at htrue
      simp only [Option.some.injEq, Bool.and_eq_true, decide_eq_true_eq] at htrue
      exact absurd ⟨htrue.1.1, htrue.1.2, htrue.2⟩ hv
    · intro _
      rw [hac]
    · rw [hac]
      exact all_commands_stable env _ M hM rfl rfl rfl

/-- Witness for claim C2: after one pass, a second pass over the unchanged
environment is valid and republishes the same map. -/
theorem all_commands_validation_witness :
    maxMtimeOf envTwoDirs = some 3
    ∧ all_commands envTwoDirs (all_commands envTwoDirs initCache).1
        = ((all_commands envTwoDirs initCache).1,
            some (all_commands envTwoDirs initCache).1.cmdsCache) :=
  ⟨by decide, (all_commands_validation envTwoDirs initCache 3 (by decide)).2.2.2.2⟩

/-- Claim C3: `predict_backgroundable` resolves `argv[0]` through the lazy
lookup; it answers `true` when the command is unresolved (no cache entry), has
no stored path, or is alias-backed; otherwise it dispatches the predictor
registered for the resolved name on `argv[1:]`, and the registry's default
for an unregistered name is `predict_true`. -/
theorem predict_backgroundable_dispatch (env : Env) (c : CommandsCache) (c0 : String)
    (rest : List String) :
    (lazyget env c (cached_name env c (some c0)) none = none →
        predict_backgroundable env c (c0 :: rest) = some true)
    ∧ (∀ b, lazyget env c (cached_name env c (some c0)) none = some (none, b) →
        predict_backgroundable env c (c0 :: rest) = some true)
    ∧ (∀ p, lazyget env c (cached_name env c (some c0)) none = some (some p, true) →
        predict_backgroundable env c (c0 :: rest) = some true)
    ∧ (∀ p, lazyget env c (cached_name env c (some c0)) none = some (some p, false) →
        predict_backgroundable env c (c0 :: rest)
          = predictorFor (cached_name env c (some c0)) rest)
    ∧ (∀ n, n ∉ (["sh", "zsh", "ksh", "csh", "tcsh", "bash", "fish", "xonsh",
          "ssh", "startx", "vi"] : List String) →
        predictorFor (some n) rest = some true) := by
  refine ⟨?_, ?_, ?_, ?_, ?_⟩
  · intro h
    simp [predict_backgroundable, h]
  · intro b h
    simp [predict_backgroundable, h]
  · intro p h
    simp [predict_backgroundable, h]
  · intro p h
    simp [predict_backgroundable, h]
  · intro n hn
    simp only [List.mem_cons, List.not_mem_nil, or_false, not_or] at hn
    obtain ⟨h1, h2, h3, h4, h5, h6, h7, h8, h9, h10, h11⟩ := hn
    simp [predictorFor, default_backgroundable_predictors, predict_true,
      h1, h2, h3, h4, h5, h6, h7, h8, h9, h10, h11]

/-- Witness for claim C3: an unknown command is backgroundable; `vi`, resolved
to a real executable, is not. -/
theorem predict_backgroundable_dispatch_witness :
    predict_backgroundable envAlias cacheVi ["unknowncmd", "-x"] = some true
    ∧ predict_backgroundable envAlias cacheVi ["vi", "file.txt"] = some false := by
  constructor
  · exact (predict_backgroundable_dispatch envAlias cacheVi "unknowncmd" ["-x"]).1 (by decide)
  · have h := (predict_backgroundable_dispatch envAlias cacheVi "vi" ["file.txt"]).2.2.2.1
      "/usr/bin/vi" (by decide)
    rw [h]
    decide

/-- Claim C4 (the code, evaluated at the failing input): the shell predictor's
parser is built as `argparse.ArgumentParser('shell')`, which leaves the
default `add_help=True` in force, so a `-h` or `--help` in the argument tail
triggers the auto help action — usage text is printed and `SystemExit` is
raised (`none`) instead of a boolean being returned. -/
theorem predict_shell_help_exits :
    predict_shell ["-h"] = none ∧ predict_shell ["--help"] = none := by
  constructor
  · rfl
  · rfl

/-- Counterexample to claim C5 on Windows: the scan stores executable `ls`
under key `LS` with its path, but the alias merge tests membership with the
raw spelling `ls` (absent) and then inserts under the normalized key `LS`,
overwriting the executable's entry: the final map has lost the path. -/
theorem alias_overwrites_scanned_entry_on_windows :
    assocGet (scannedOf envWinAlias) "LS" = some (some "/a/ls", true)
    ∧ rebuild envWinAlias = [("LS", ((none : Option String), true))]
    ∧ assocGet (rebuild envWinAlias) "LS" ≠ some (some "/a/ls", true) := by
  refine ⟨by decide, by decide, by decide⟩

/-- Claim C5 as amended: on platforms without case normalization (where the
raw alias name coincides with its key), an alias name absent from the scanned
map is added as an alias-only `(absent, true)` entry, and the alias merge
never replaces any scanned entry; on Windows an alias whose raw spelling is
not itself a key overwrites the scanned entry stored under its normalized
key. -/
theorem alias_merge_non_windows (env : Env) (hwin : env.onWindows = false) :
    (∀ a ∈ env.aliases, assocGet (scannedOf env) a = none →
        assocGet (rebuild env) a = some ((none : Option String), true))
    ∧ (∀ k v, assocGet (scannedOf env) k = some v → assocGet (rebuild env) k = some v) := by
  constructor
  · intro a ha hnone
    unfold rebuild
    exact aliasFold_adds env hwin a env.aliases _ ha hnone
  · intro k v hv
    unfold rebuild
    exact aliasFold_preserve env hwin k v env.aliases _ hv

/-- Witness for the amended claim C5: alias `ls` plus real executable `ls`
yields `(path, true)` (the scan already set `has_alias`), and the pure alias
`myalias` yields `(absent, true)`. -/
theorem alias_merge_non_windows_witness :
    assocGet (rebuild envAlias) "ls" = some (some "/a/ls", true)
    ∧ assocGet (rebuild envAlias) "myalias" = some ((none : Option String), true) := by
  constructor
  · exact (alias_merge_non_windows envAlias rfl).2 "ls" (some "/a/ls", true) (by decide)
  · exact (alias_merge_non_windows envAlias rfl).1 "myalias" (by decide) (by decide)

/-- Counterexample to claim C6: a directory that passed the existence filter
but whose `os.stat` raises makes the whole validating operation raise
(result `none`) — the directory is not skipped and the operation does not
complete. -/
theorem vanished_dir_aborts :
    envVanish.isdir "/gone" = true
    ∧ envVanish.stat "/gone" = none
    ∧ (all_commands envVanish initCache).2 = none := by
  refine ⟨rfl, rfl, by decide⟩

/-- Claim C6 as amended: when `os.stat` raises on some directory of the path
set, the mtime loop has no handler, so the exception propagates out of the
validating operation; the path and alias checksums (assigned before the
loop) are still refreshed, while `_path_mtime` and the map are left
untouched. -/
theorem all_commands_raises (env : Env) (c : CommandsCache)
    (h : maxMtimeOf env = none) :
    all_commands env c
      = ({ c with
            pathChecksum := some (pathHashOf env)
            aliasChecksum := some (aliasHashOf env) }, none) := by
  unfold all_commands
  rw [h]
  rfl

/-- Witness for the amended claim C6 at the concrete vanished directory. -/
theorem all_commands_raises_witness :
    all_commands envVanish initCache
      = ({ initCache with
            pathChecksum := some (pathHashOf envVanish)
            aliasChecksum := some (aliasHashOf envVanish) }, none) :=
  all_commands_raises envVanish initCache (by decide)

/-- Claim C7: on Windows `get_possible_names` yields the upper-cased bare
name followed by the bare name with each `PATHEXT` suffix appended in
configured order; on other platforms it yields the one-element list with the
case preserved.  At `PATHEXT = ['.EXE', '.BAT']` the variants of `foo` are
exactly `['FOO', 'FOO.EXE', 'FOO.BAT']`. -/
theorem get_possible_names_spec (env : Env) (name : String) :
    get_possible_names env name
      = (if env.onWindows then
          strUpper name :: env.pathext.map (fun ext => strUpper name ++ ext)
        else [name])
    ∧ get_possible_names envWinExt "foo" = ["FOO", "FOO.EXE", "FOO.BAT"] := by
  constructor
  · unfold get_possible_names
    by_cases h : env.onWindows
    · simp only [h, if_true, List.map_cons]
      rw [show strUpper name ++ "" = strUpper name from by
        cases hs : strUpper name with
        | mk l => show String.mk (l ++ []) = String.mk l; rw [List.append_nil]]
    · simp [h]
  · decide

/-- Claim C8: in any rebuilt map, an entry whose executable path is absent
has its `has_alias` flag set — every entry either carries a path or is a
pure alias entry. -/
theorem rebuild_entry_invariant (env : Env) (k : String) (v : EntryV)
    (h : assocGet (rebuild env) k = some v) (hnone : v.1 = none) : v.2 = true :=
  mapOk_rebuild env k v h hnone

/-- Witness for claim C8 at a concrete rebuilt map with a pure alias entry. -/
theorem rebuild_entry_invariant_witness :
    assocGet (rebuild envAlias) "myalias" = some ((none : Option String), true)
    ∧ (((none : Option String), true) : EntryV).2 = true :=
  ⟨by decide, rebuild_entry_invariant envAlias "myalias" ((none : Option String), true)
      (by decide) rfl⟩

/-- Counterexample to claim C9: over an environment with no directories and
no aliases, a validating pass on a fresh cache is invalid (`cache_valid` is
false), performs the rebuild, and publishes the rebuilt (empty) map — the
cache has now been populated by a rebuild, yet `is_empty` still returns
true. -/
theorem rebuild_can_publish_empty_map :
    cacheValidOf envEmpty initCache = some false
    ∧ (all_commands envEmpty initCache).2
        = some ((all_commands envEmpty initCache).1.cmdsCache)
    ∧ (all_commands envEmpty initCache).2 = some (rebuild envEmpty)
    ∧ is_empty (all_commands envEmpty initCache).1 = true := by
  refine ⟨by decide, by decide, by decide, by decide⟩

/-- Claim C9 as amended: `is_empty` returns true exactly when the current
map has no entries — true on a never-populated cache, but also after a
rebuild that published an empty map. -/
theorem is_empty_iff_no_entries (c : CommandsCache) :
    is_empty c = true ↔ c.cmdsCache = [] := by
  unfold is_empty
  simp [List.length_eq_zero]

/-- Claim C10: every lookup key is first reduced to its path base name (with
the Windows name-variant search applied on top of the base name), so the
lazy membership test and lazy getter agree on a path and on its base name;
the validating `contains` inherits this. -/
theorem lookup_uses_basename (env : Env) (c : CommandsCache) (p : String)
    (d : Option EntryV) :
    cached_name env c (some p) = cached_name env c (some (pathbasename p))
    ∧ lazyin env c (some p) = lazyin env c (some (pathbasename p))
    ∧ lazyget env c (some p) d = lazyget env c (some (pathbasename p)) d
    ∧ (contains_op env c (some p)).2 = (contains_op env c (some (pathbasename p))).2 := by
  refine ⟨cached_name_basename env c p, ?_, ?_, ?_⟩
  · unfold lazyin
    rw [cached_name_basename]
  · unfold lazyget
    rw [cached_name_basename]
  · unfold contains_op
    cases hac : all_commands env c with
    | mk c' r =>
      cases r with
      | none => rfl
      | some m =>
        show some (lazyin env c' (some p)) = some (lazyin env c' (some (pathbasename p)))
        refine congrArg some ?_
        unfold lazyin
        rw [cached_name_basename]
